import Mathlib

/-!
Shallow embedding of `src/font_loader.rs` (the PF2 bitmap-font loader).

Modelling conventions:
* The input buffer `data : &[u8]` is a `List Nat` of byte values; reads use
  explicit bounds checks exactly where the Rust `Cursor`/slice operations
  check (or panic).
* `std::io::Error` results are modelled by the `Outcome` type: `.ok` for
  `Ok`, `.err e` for `Err(..)` where the constructor of `e` identifies the
  `Error::new(..)` site (the Rust code carries strings; each constructor
  below corresponds to one distinct error construction site, with
  `.truncatedInput` standing for the `UnexpectedEof` I/O error produced by
  `read_u8/read_u16/read_u32/read_i16` at end of buffer), and `.panicked`
  for a Rust panic (a failed `assert!`, an out-of-range slice index, or an
  out-of-range `Vec` index).
* `u16`/`u32` values are `Nat` (big-endian assembly keeps them below 2^16 /
  2^32 by construction); `i16` values are `Int` obtained by two's-complement
  reinterpretation of the 16-bit pattern.
* The `f32` metric normalisation of `FontGlyph` is modelled by exact
  rational arithmetic: the claims under study never depend on `f32`
  rounding.  The single `f32` computation affecting control flow,
  `(n as f32 * max_height as f32 / max_width as f32).sqrt().ceil() as usize`
  in `parse_data_section`, is modelled as the exact ceiling of the real
  square root of the rational `n * max_height / max_width`, computed as the
  least `k` with `n * max_height ≤ k * k * max_width`.
* `AHashMap` is modelled as an association list in insertion order:
  `insert` replaces the value of an existing key in place (RawTable
  replacement) or appends a fresh key at the end; `len()` is the number of
  stored keys.  Iteration in `parse_data_section` is modelled in insertion
  order (the hash map's real iteration order is arbitrary; no claim below
  depends on it).
-/

namespace PF2

/-- Model of the `rgb::RGBA8` pixel struct. -/
structure RGBA8 where
  r : Nat
  g : Nat
  b : Nat
  a : Nat
deriving DecidableEq

/-- Model of `RGBA8::default()`: all channels zero (transparent black). -/
def defaultRGBA : RGBA8 := ⟨0, 0, 0, 0⟩

/-- Model of `RGBA8::new(255, 255, 255, 255)`: the opaque white pixel. -/
def whiteRGBA : RGBA8 := ⟨255, 255, 255, 255⟩

/-- Identifies the failure exits of the loader.  Each constructor stands for
one `Error::new(..)` site of `font_loader.rs` (the Rust code returns
`std::io::Error` values carrying message strings); `truncatedInput` stands
for the `UnexpectedEof` error of a `byteorder` read past the buffer end. -/
inductive FormatError where
  | truncatedInput
  | badSignature
  | badMagic
  | unexpectedSection
  | encodingError
  | recordSizeMismatch
  | duplicateSection
  | emptyIndex
  | missingMaxWidth
  | missingMaxHeight
deriving DecidableEq

/-- Result of running a piece of the loader: normal return, an `Err(..)`
returned to the caller, or a Rust panic (assertion failure / out-of-range
index), which aborts instead of returning a value. -/
inductive Outcome (α : Type) where
  | ok (a : α)
  | err (e : FormatError)
  | panicked
deriving DecidableEq

/-- True exactly on a normal (`Ok`) result. -/
def Outcome.isOk {α : Type} : Outcome α → Bool
  | .ok _ => true
  | _ => false

/-- True exactly on a returned (recoverable) error; false on `ok` and on a
panic. -/
def Outcome.isErr {α : Type} : Outcome α → Bool
  | .err _ => true
  | _ => false

/-- Byte of the buffer at a position; total, used only under explicit bounds
guards that mirror the Rust bounds checks. -/
def byteAt (data : List Nat) (p : Nat) : Nat := data.getD p 0

/-- Big-endian 16-bit read at a position (value of `read_u16::<BigEndian>`). -/
def be16 (data : List Nat) (p : Nat) : Nat :=
  byteAt data p * 256 + byteAt data (p + 1)

/-- Big-endian 32-bit read at a position (value of `read_u32::<BigEndian>`). -/
def be32 (data : List Nat) (p : Nat) : Nat :=
  ((byteAt data p * 256 + byteAt data (p + 1)) * 256 + byteAt data (p + 2)) * 256
    + byteAt data (p + 3)

/-- Two's-complement reinterpretation of a 16-bit pattern as `i16`. -/
def toI16 (v : Nat) : Int :=
  if v < 0x8000 then (v : Int) else (v : Int) - 0x10000

/-- Model of `PF2Loader::make_section_type`: packs four tag bytes into a
`u32`, high byte first. -/
def make_section_type (a b c d : Nat) : Nat :=
  ((a * 256 + b) * 256 + c) * 256 + d

/-- Tag constant for `b"FILE"`. -/
def tagFILE : Nat := make_section_type 70 73 76 69

/-- Tag constant for `b"NAME"`. -/
def tagNAME : Nat := make_section_type 78 65 77 69

/-- Tag constant for `b"FAMI"`. -/
def tagFAMI : Nat := make_section_type 70 65 77 73

/-- Tag constant for `b"WEIG"`. -/
def tagWEIG : Nat := make_section_type 87 69 73 71

/-- Tag constant for `b"SLAN"`. -/
def tagSLAN : Nat := make_section_type 83 76 65 78

/-- Tag constant for `b"PTSZ"`. -/
def tagPTSZ : Nat := make_section_type 80 84 83 90

/-- Tag constant for `b"MAXW"`. -/
def tagMAXW : Nat := make_section_type 77 65 88 87

/-- Tag constant for `b"MAXH"`. -/
def tagMAXH : Nat := make_section_type 77 65 88 72

/-- Tag constant for `b"ASCE"`. -/
def tagASCE : Nat := make_section_type 65 83 67 69

/-- Tag constant for `b"DESC"`. -/
def tagDESC : Nat := make_section_type 68 69 83 67

/-- Tag constant for `b"CHIX"`. -/
def tagCHIX : Nat := make_section_type 67 72 73 88

/-- Tag constant for `b"DATA"`. -/
def tagDATA : Nat := make_section_type 68 65 84 65

/-- Byte values of the literal `"PFF2"` that the FILE section body must
equal. -/
def pff2Magic : List Nat := [80, 70, 70, 50]

/-- True on a UTF-8 continuation byte (`0x80..=0xBF`). -/
def isCont (b : Nat) : Bool := decide (0x80 ≤ b) && decide (b ≤ 0xBF)

/-- UTF-8 validity of a byte sequence, exactly the acceptance condition of
Rust's `std::str::from_utf8` (RFC 3629: no overlong forms, no surrogates,
scalar values at most U+10FFFF). -/
def utf8Valid : List Nat → Bool
  | [] => true
  | b :: rest =>
    if b ≤ 0x7F then utf8Valid rest
    else if 0xC2 ≤ b && b ≤ 0xDF then
      match rest with
      | c1 :: r => isCont c1 && utf8Valid r
      | [] => false
    else if b == 0xE0 then
      match rest with
      | c1 :: c2 :: r =>
        (decide (0xA0 ≤ c1) && decide (c1 ≤ 0xBF)) && isCont c2 && utf8Valid r
      | _ => false
    else if (0xE1 ≤ b && b ≤ 0xEC) || b == 0xEE || b == 0xEF then
      match rest with
      | c1 :: c2 :: r => isCont c1 && isCont c2 && utf8Valid r
      | _ => false
    else if b == 0xED then
      match rest with
      | c1 :: c2 :: r =>
        (decide (0x80 ≤ c1) && decide (c1 ≤ 0x9F)) && isCont c2 && utf8Valid r
      | _ => false
    else if b == 0xF0 then
      match rest with
      | c1 :: c2 :: c3 :: r =>
        (decide (0x90 ≤ c1) && decide (c1 ≤ 0xBF)) && isCont c2 && isCont c3
          && utf8Valid r
      | _ => false
    else if 0xF1 ≤ b && b ≤ 0xF3 then
      match rest with
      | c1 :: c2 :: c3 :: r => isCont c1 && isCont c2 && isCont c3 && utf8Valid r
      | _ => false
    else if b == 0xF4 then
      match rest with
      | c1 :: c2 :: c3 :: r =>
        (decide (0x80 ≤ c1) && decide (c1 ≤ 0x8F)) && isCont c2 && isCont c3
          && utf8Valid r
      | _ => false
    else false

/-- First value stored under a key in an association list (the unique value,
under the no-duplicate-keys invariant maintained by `assocInsert`). -/
def assocFind {α : Type} (m : List (Nat × α)) (k : Nat) : Option α :=
  match m with
  | [] => none
  | (c, v) :: rest => if c = k then some v else assocFind rest k

/-- Model of `HashMap::insert`: an existing key has its value replaced in
place; a fresh key is appended (insertion order is the iteration order of
the model). -/
def assocInsert {α : Type} (m : List (Nat × α)) (k : Nat) (v : α) : List (Nat × α) :=
  if (assocFind m k).isSome then
    m.map (fun e => if e.1 = k then (k, v) else e)
  else m ++ [(k, v)]

/-- Model of the `PF2CharDef` struct (the fixed glyph-definition header). -/
structure PF2CharDef where
  width : Nat
  height : Nat
  x_offset : Int
  y_offset : Int
  device_width : Int
deriving DecidableEq

/-- Model of the `FontGlyph` output struct; the five `f32`/`Vec2` fields are
modelled as exact rationals. -/
structure FontGlyph where
  tex_coord : ℚ × ℚ
  tex_size : ℚ × ℚ
  offset : ℚ × ℚ
  size : ℚ × ℚ
  width : ℚ
deriving DecidableEq

/-- Mutable state of a `PF2Loader` (all fields of the Rust struct except the
borrowed buffer, plus `pos`, the position of the shared `Cursor`). -/
structure LoaderState where
  section_type : Nat
  section_len : Nat
  section_start : Nat
  point_size : Nat
  max_width : Nat
  max_height : Nat
  ascent : Nat
  descent : Nat
  character_index : List (Nat × Nat × Nat)
  col_count : Nat
  texture_width : Nat
  texture_height : Nat
  texture_data : List RGBA8
  glyphs : List (Nat × FontGlyph)
  pos : Nat
deriving DecidableEq

/-- Model of `PF2Loader::new`: every scalar zero, every container empty,
cursor at the start. -/
def newLoader : LoaderState :=
  { section_type := 0, section_len := 0, section_start := 0, point_size := 0
    max_width := 0, max_height := 0, ascent := 0, descent := 0
    character_index := [], col_count := 0, texture_width := 0
    texture_height := 0, texture_data := [], glyphs := [], pos := 0 }

/-- Model of `PF2Loader::read_section`: seek to `section_start + section_len`,
read the 8-byte header (two big-endian `u32` reads fail with `UnexpectedEof`
when fewer than 8 bytes remain), update the current section fields, leave
the cursor after the header, and report whether the declared length is below
the `0xFFFFFFFF` sentinel. -/
def read_section (data : List Nat) (s : LoaderState) : Outcome (Bool × LoaderState) :=
  let p := s.section_start + s.section_len
  if p + 8 ≤ data.length then
    let t := be32 data p
    let l := be32 data (p + 4)
    .ok (decide (l < 0xFFFFFFFF),
      { s with section_type := t, section_len := l, section_start := p + 8,
               pos := p + 8 })
  else .err .truncatedInput

/-- Model of `PF2Loader::section_type_as_str`: slice
`data[section_start - 8 .. section_start - 4]` (a Rust slice panic when the
range is out of bounds, including the `usize` underflow when
`section_start < 8`) and require UTF-8 validity. -/
def section_type_as_str (data : List Nat) (s : LoaderState) : Outcome (List Nat) :=
  if s.section_start < 8 then .panicked
  else if s.section_start - 4 ≤ data.length then
    let bytes := (data.drop (s.section_start - 8)).take 4
    if utf8Valid bytes then .ok bytes else .err .encodingError
  else .panicked

/-- Model of `PF2Loader::section_as_str`: slice
`data[section_start .. section_start + section_len]` (a Rust slice panic
when the end exceeds the buffer) and require UTF-8 validity. -/
def section_as_str (data : List Nat) (s : LoaderState) : Outcome (List Nat) :=
  if s.section_start + s.section_len ≤ data.length then
    let bytes := (data.drop s.section_start).take s.section_len
    if utf8Valid bytes then .ok bytes else .err .encodingError
  else .panicked

/-- Model of line 107 of the source: `character_index.insert(cp, (offset,
character_index.len()))` — the second component of the inserted value is the
map's size just before the insertion. -/
def ciInsert (m : List (Nat × Nat × Nat)) (cp off : Nat) : List (Nat × Nat × Nat) :=
  assocInsert m cp (off, m.length)

/-- Loop body of `parse_character_index`: for each of the remaining records,
read `u32` code point, `u8` flags and `u32` offset from the cursor (failing
with `UnexpectedEof` past the buffer end), run
`assert!(flags & 0b111 == 0)` (a panic when it fails), and insert. -/
def ciLoop (data : List Nat) : Nat → Nat → List (Nat × Nat × Nat) →
    Outcome (Nat × List (Nat × Nat × Nat))
  | 0, pos, m => .ok (pos, m)
  | n + 1, pos, m =>
    if pos + 9 ≤ data.length then
      let cp := be32 data pos
      let flags := byteAt data (pos + 4)
      let off := be32 data (pos + 5)
      if flags &&& 7 = 0 then ciLoop data n (pos + 9) (ciInsert m cp off)
      else .panicked
    else .err .truncatedInput

/-- Model of `PF2Loader::parse_character_index`: reject a second CHIX
section, require the section length to be a multiple of the 9-byte record
size, then run the record loop from the current cursor position. -/
def parse_character_index (data : List Nat) (s : LoaderState) : Outcome LoaderState :=
  if ¬ s.character_index.isEmpty then .err .duplicateSection
  else if s.section_len % 9 ≠ 0 then .err .recordSizeMismatch
  else
    match ciLoop data (s.section_len / 9) s.pos s.character_index with
    | .ok (pos', m) => .ok { s with pos := pos', character_index := m }
    | .err e => .err e
    | .panicked => .panicked

/-- Cursor read of a big-endian `u16` (used by the metadata sections). -/
def readU16 (data : List Nat) (pos : Nat) : Outcome (Nat × Nat) :=
  if pos + 2 ≤ data.length then .ok (be16 data pos, pos + 2)
  else .err .truncatedInput

/-- Model of `PF2Loader::parse_section`: dispatch on the current section
type.  The string sections and unknown sections only had (commented-out)
trace output, so they do nothing; the numeric sections read one big-endian
`u16` from the cursor; CHIX delegates to `parse_character_index`. -/
def parse_section (data : List Nat) (s : LoaderState) : Outcome LoaderState :=
  if s.section_type = tagNAME ∨ s.section_type = tagFAMI ∨
      s.section_type = tagWEIG ∨ s.section_type = tagSLAN then .ok s
  else if s.section_type = tagPTSZ then
    match readU16 data s.pos with
    | .ok (v, p') => .ok { s with point_size := v, pos := p' }
    | .err e => .err e
    | .panicked => .panicked
  else if s.section_type = tagMAXW then
    match readU16 data s.pos with
    | .ok (v, p') => .ok { s with max_width := v, pos := p' }
    | .err e => .err e
    | .panicked => .panicked
  else if s.section_type = tagMAXH then
    match readU16 data s.pos with
    | .ok (v, p') => .ok { s with max_height := v, pos := p' }
    | .err e => .err e
    | .panicked => .panicked
  else if s.section_type = tagASCE then
    match readU16 data s.pos with
    | .ok (v, p') => .ok { s with ascent := v, pos := p' }
    | .err e => .err e
    | .panicked => .panicked
  else if s.section_type = tagDESC then
    match readU16 data s.pos with
    | .ok (v, p') => .ok { s with descent := v, pos := p' }
    | .err e => .err e
    | .panicked => .panicked
  else if s.section_type = tagCHIX then parse_character_index data s
  else .ok s

/-- Model of `PF2Loader::read_char_def` called with the cursor at `off`:
five big-endian 16-bit reads starting at the absolute buffer position `off`;
on success the cursor ends at `off + 10`. -/
def read_char_def (data : List Nat) (off : Nat) : Outcome (PF2CharDef × Nat) :=
  if off + 10 ≤ data.length then
    .ok ({ width := be16 data off, height := be16 data (off + 2),
           x_offset := toI16 (be16 data (off + 4)),
           y_offset := toI16 (be16 data (off + 6)),
           device_width := toI16 (be16 data (off + 8)) }, off + 10)
  else .err .truncatedInput

/-- Model of the column-count computation of `parse_data_section` (line 190):
the exact ceiling of the square root of `n * max_height / max_width`,
i.e. the least `k` with `n * max_height ≤ k * k * max_width`.  (The source
computes this in `f32`; the claims under study use values on which the two
agree.  For `max_width = 0` the search fails and the model returns 0; that
case is rejected before the computation is reached.) -/
def compute_col_count (n mh mw : Nat) : Nat :=
  match (List.range (n * mh + 1)).find? (fun k => decide (n * mh ≤ k * k * mw)) with
  | some k => k
  | none => 0

/-- Atlas dimensions from glyph count and cell size (lines 191-192):
`(col_count * max_width, ceil(n / col_count) * max_height)`. -/
def texture_size (n mw mh : Nat) : Nat × Nat :=
  let c := compute_col_count n mh mw
  (c * mw, (n + c - 1) / c * mh)

/-- Cell origin of the glyph with a given sequence index (lines 157-158):
`(index % col_count * max_width, index / col_count * max_height)`. -/
def cell_origin (index col_count mw mh : Nat) : Nat × Nat :=
  (index % col_count * mw, index / col_count * mh)

/-- One iteration of the inner bitmap loop (lines 164-168): bit `y * w + x`
of the packed stream, most significant bit first, taken from
`data[base + i / 8]` (a panic when that index is out of range); a set bit
writes the white pixel at `j + x` (a `Vec` index panic when out of range),
a clear bit leaves the texture unchanged. -/
def drawPixel (data : List Nat) (base w y x j : Nat) (t : List RGBA8) :
    Outcome (List RGBA8) :=
  let i := y * w + x
  if base + i / 8 < data.length then
    if (byteAt data (base + i / 8)).testBit (7 - i % 8) then
      if j + x < t.length then .ok (t.set (j + x) whiteRGBA) else .panicked
    else .ok t
  else .panicked

/-- Inner loop of `parse_char_bitmap` over the pixels of one row. -/
def drawRow (data : List Nat) (base w y j : Nat) :
    List Nat → List RGBA8 → Outcome (List RGBA8)
  | [], t => .ok t
  | x :: xs, t =>
    match drawPixel data base w y x j t with
    | .ok t' => drawRow data base w y j xs t'
    | .err e => .err e
    | .panicked => .panicked

/-- Outer loop of `parse_char_bitmap` over the rows of the glyph; row `y`
starts at linear texture position `(y0 + y) * texW + x0` (line 162). -/
def drawRows (data : List Nat) (base w texW x0 y0 : Nat) :
    List Nat → List RGBA8 → Outcome (List RGBA8)
  | [], t => .ok t
  | y :: ys, t =>
    match drawRow data base w y ((y0 + y) * texW + x0) (List.range w) t with
    | .ok t' => drawRows data base w texW x0 y0 ys t'
    | .err e => .err e
    | .panicked => .panicked

/-- Bitmap decoding of one glyph (lines 161-170): all rows `0 ≤ y < h`, all
columns `0 ≤ x < w`, reading packed bits from `base` onward. -/
def drawGlyph (data : List Nat) (base w texW x0 y0 h : Nat) (t : List RGBA8) :
    Outcome (List RGBA8) :=
  drawRows data base w texW x0 y0 (List.range h) t

/-- Model of `PF2Loader::parse_char_bitmap`: compute the cell origin from
the sequence index, decode the bitmap into the texture, and build the
normalised `FontGlyph` (rationals standing for the `f32` divisions; note a
zero `point_size` is never checked here). -/
def parse_char_bitmap (data : List Nat) (s : LoaderState) (index : Nat)
    (d : PF2CharDef) (base : Nat) : Outcome (List RGBA8 × FontGlyph) :=
  let xy := cell_origin index s.col_count s.max_width s.max_height
  match drawGlyph data base d.width s.texture_width xy.1 xy.2 d.height
      s.texture_data with
  | .ok t =>
    .ok (t,
      { tex_coord := ((xy.1 : ℚ) / (s.texture_width : ℚ),
                      (xy.2 : ℚ) / (s.texture_height : ℚ)),
        tex_size := ((d.width : ℚ) / (s.texture_width : ℚ),
                     (d.height : ℚ) / (s.texture_height : ℚ)),
        offset := ((d.x_offset : ℚ) / (s.point_size : ℚ),
                   (d.y_offset : ℚ) / (s.point_size : ℚ)),
        size := ((d.width : ℚ) / (s.point_size : ℚ),
                 (d.height : ℚ) / (s.point_size : ℚ)),
        width := (d.device_width : ℚ) / (s.point_size : ℚ) })
  | .err e => .err e
  | .panicked => .panicked

/-- Per-entry loop of `parse_data_section` (lines 195-200): seek to the
stored offset (an absolute position in the whole buffer), read the glyph
header there, decode the bitmap, and file the glyph under its code point.
The hash map's iteration order is modelled as insertion order. -/
def glyphLoop (data : List Nat) (s : LoaderState) :
    List (Nat × Nat × Nat) → Outcome LoaderState
  | [] => .ok s
  | (cp, off, index) :: rest =>
    match read_char_def data off with
    | .ok (d, pos') =>
      match parse_char_bitmap data s index d pos' with
      | .ok (t, glyph) =>
        glyphLoop data
          { s with texture_data := t, glyphs := assocInsert s.glyphs cp glyph,
                   pos := pos' } rest
      | .err e => .err e
      | .panicked => .panicked
    | .err e => .err e
    | .panicked => .panicked

/-- Model of `PF2Loader::parse_data_section`: reject an empty character
index, a zero `max_width` and a zero `max_height` (nothing checks
`point_size`); size the atlas; allocate the transparent texture; decode
every indexed glyph. -/
def parse_data_section (data : List Nat) (s : LoaderState) : Outcome LoaderState :=
  if s.character_index.isEmpty then .err .emptyIndex
  else if s.max_width = 0 then .err .missingMaxWidth
  else if s.max_height = 0 then .err .missingMaxHeight
  else
    let c := compute_col_count s.character_index.length s.max_height s.max_width
    let tw := c * s.max_width
    let th := (s.character_index.length + c - 1) / c * s.max_height
    glyphLoop data
      { s with col_count := c, texture_width := tw, texture_height := th,
               texture_data := List.replicate (tw * th) defaultRGBA }
      s.character_index

/-- The metadata scan of `load` (line 218): `while read_section()? {
parse_section()?; }`.  The recursion is driven by a fuel argument; fuel
`data.length + 1` can never be exhausted because every successful
`read_section` moves `section_start` forward by at least 8 while keeping it
at most `data.length` (shown by `sectionLoop_fuel`). -/
def sectionLoop (data : List Nat) : Nat → LoaderState → Outcome LoaderState
  | 0, _ => .panicked
  | fuel + 1, s =>
    match read_section data s with
    | .ok (more, s') =>
      if more then
        match parse_section data s' with
        | .ok s'' => sectionLoop data fuel s''
        | .err e => .err e
        | .panicked => .panicked
      else .ok s'
    | .err e => .err e
    | .panicked => .panicked

/-- Model of `PF2Loader::load`: read the first section, require tag `FILE`
(the failure message formats the tag via `section_type_as_str()?`, so an
undecodable tag surfaces as `encodingError` instead), require body `"PFF2"`
(read via `section_as_str()?`, so an out-of-range body panics and an
undecodable body surfaces as `encodingError`), scan the metadata sections,
require the final section tag `DATA`, parse the data section, and return
the texture and the glyph map. -/
def load (data : List Nat) : Outcome (List RGBA8 × List (Nat × FontGlyph)) :=
  match read_section data newLoader with
  | .ok (_, s1) =>
    if s1.section_type = tagFILE then
      match section_as_str data s1 with
      | .ok body =>
        if body = pff2Magic then
          match sectionLoop data (data.length + 1) s1 with
          | .ok s2 =>
            if s2.section_type = tagDATA then
              match parse_data_section data s2 with
              | .ok s3 => .ok (s3.texture_data, s3.glyphs)
              | .err e => .err e
              | .panicked => .panicked
            else
              match section_type_as_str data s2 with
              | .ok _ => .err .unexpectedSection
              | .err e => .err e
              | .panicked => .panicked
          | .err e => .err e
          | .panicked => .panicked
        else .err .badMagic
      | .err e => .err e
      | .panicked => .panicked
    else
      match section_type_as_str data s1 with
      | .ok _ => .err .badSignature
      | .err e => .err e
      | .panicked => .panicked
  | .err e => .err e
  | .panicked => .panicked

/-- Value stored for a code point by the character index of a successfully
parsed state (observation helper for the theorems below). -/
def ciLookup (o : Outcome LoaderState) (k : Nat) : Option (Nat × Nat) :=
  match o with
  | .ok s => assocFind s.character_index k
  | _ => none

/-- Texture pixel of a decode result at a linear position (observation
helper for the theorems below). -/
def texAt (o : Outcome (List RGBA8)) (p : Nat) : Option RGBA8 :=
  match o with
  | .ok t => t.get? p
  | _ => none

/-- Decides membership of a linear texture position in the
`max_width × max_height` cell of the glyph with sequence index `i`. -/
def inCellB (c mw mh texW i p : Nat) : Bool :=
  (List.range mw).any (fun x => (List.range mh).any (fun y =>
    p == (i / c * mh + y) * texW + (i % c * mw + x)))

/-- Byte-level decoding of `n` consecutive 9-byte character-index records
starting at a position: `(code point, flags, offset)` triples. -/
def decodeRecords (data : List Nat) : Nat → Nat → Option (List (Nat × Nat × Nat))
  | 0, _ => some []
  | n + 1, pos =>
    if pos + 9 ≤ data.length then
      match decodeRecords data n (pos + 9) with
      | some rs => some ((be32 data pos, byteAt data (pos + 4), be32 data (pos + 5)) :: rs)
      | none => none
    else none

/-- The pure fold that `ciLoop` performs on already-decoded records. -/
def foldRecs (m : List (Nat × Nat × Nat)) (rs : List (Nat × Nat × Nat)) :
    List (Nat × Nat × Nat) :=
  rs.foldl (fun acc r => ciInsert acc r.1 r.2.2) m

/-- States that agree on every field that steers the control flow of
`glyphLoop` (they may differ in `point_size`, the metric fields and the
already-accumulated glyph map). -/
def GeomEq (s1 s2 : LoaderState) : Prop :=
  s1.col_count = s2.col_count ∧ s1.max_width = s2.max_width ∧
  s1.max_height = s2.max_height ∧ s1.texture_width = s2.texture_width ∧
  s1.texture_data = s2.texture_data

end PF2

namespace PF2

/-- Bytes extracted through `byteAt` from a well-formed byte buffer are
below 256 (out-of-range positions default to 0). -/
theorem byteAt_lt (data : List Nat) (hb : ∀ x ∈ data, x < 256) (p : Nat) :
    byteAt data p < 256 := by
  unfold byteAt
  rw [List.getD_eq_getElem?_getD]
  cases h : data[p]? with
  | none => simp
  | some v => simpa using hb v (List.getElem?_mem h)

/-- A big-endian 32-bit read from a well-formed byte buffer fits in 32
bits. -/
theorem be32_lt (data : List Nat) (hb : ∀ x ∈ data, x < 256) (p : Nat) :
    be32 data p < 4294967296 := by
  have h0 := byteAt_lt data hb p
  have h1 := byteAt_lt data hb (p + 1)
  have h2 := byteAt_lt data hb (p + 2)
  have h3 := byteAt_lt data hb (p + 3)
  unfold be32
  nlinarith

end PF2

namespace PF2

/-- C8: for a character index of exactly 2 glyphs with `max_width = 8` and
`max_height = 8`, the atlas sizing computes `col_count = 2`, texture size
`16 × 8`, and the cells of sequence indices 0 and 1 start at pixel origins
`(0, 0)` and `(8, 0)`. -/
theorem atlas_two_glyphs :
    compute_col_count 2 8 8 = 2 ∧ texture_size 2 8 8 = (16, 8) ∧
    cell_origin 0 2 8 8 = (0, 0) ∧ cell_origin 1 2 8 8 = (8, 0) := by decide

/-- First-section state of the 8-byte buffer used by the C4 counterexample. -/
def c4state : LoaderState :=
  { newLoader with section_type := tagFILE, section_len := 4, section_start := 8, pos := 8 }

/-- C4 counterexample: on the 8-byte buffer `FILE` + declared length 4 the
section advance succeeds even though the declared body range `[8, 12)`
exceeds the buffer, and the subsequent body access panics instead of
returning `TruncatedInput`. -/
theorem body_range_unchecked_cex :
    read_section [70,73,76,69, 0,0,0,4] newLoader = .ok (true, c4state) ∧
    c4state.section_start + c4state.section_len >
      ([70,73,76,69, 0,0,0,4] : List Nat).length ∧
    section_as_str [70,73,76,69, 0,0,0,4] c4state = .panicked := by decide

/-- C4 amended: the section advance fails with `TruncatedInput` exactly when
fewer than 8 bytes remain for the header (and never panics); the declared
body range is not validated, and the body access `section_as_str` panics
exactly when the declared range exceeds the buffer. -/
theorem read_section_truncation (data : List Nat) (s : LoaderState) :
    (read_section data s = .err .truncatedInput ↔
      data.length < s.section_start + s.section_len + 8) ∧
    read_section data s ≠ .panicked ∧
    (section_as_str data s = .panicked ↔
      data.length < s.section_start + s.section_len) := by
  refine ⟨?_, ?_, ?_⟩
  · unfold read_section
    dsimp only
    split_ifs with h
    · constructor
      · intro hco; simp at hco
      · intro hlt; omega
    · constructor
      · intro _; omega
      · intro _; rfl
  · unfold read_section
    dsimp only
    split_ifs with h <;> simp
  · unfold section_as_str
    dsimp only
    split_ifs with h h2
    · simp
      omega
    · simp
      omega
    · simp
      omega

/-- C6: one successful section advance on a well-formed byte buffer reads
the 8-byte header at `section_start + section_len`, stores the type, the
declared length and the new body start, and returns `false` exactly when
the declared length is the `0xFFFFFFFF` sentinel. -/
theorem read_section_spec (data : List Nat) (s : LoaderState)
    (hb : ∀ x ∈ data, x < 256)
    (h : s.section_start + s.section_len + 8 ≤ data.length) :
    ∃ b s', read_section data s = .ok (b, s') ∧
      s'.section_type = be32 data (s.section_start + s.section_len) ∧
      s'.section_len = be32 data (s.section_start + s.section_len + 4) ∧
      s'.section_start = s.section_start + s.section_len + 8 ∧
      (b = false ↔ s'.section_len = 0xFFFFFFFF) := by
  have hlt := be32_lt data hb (s.section_start + s.section_len + 4)
  refine ⟨decide (be32 data (s.section_start + s.section_len + 4) < 0xFFFFFFFF),
    { s with section_type := be32 data (s.section_start + s.section_len),
             section_len := be32 data (s.section_start + s.section_len + 4),
             section_start := s.section_start + s.section_len + 8,
             pos := s.section_start + s.section_len + 8 }, ?_, rfl, rfl, rfl, ?_⟩
  · unfold read_section
    dsimp only
    rw [if_pos (by omega)]
  · simp only [decide_eq_false_iff_not, not_lt]
    constructor
    · intro hge; omega
    · intro heq; omega

/-- C6 witness: the advance on a concrete 12-byte buffer. -/
theorem read_section_spec_witness :
    ∃ b s', read_section [70,73,76,69, 0,0,0,4, 80,70,70,50] newLoader = .ok (b, s') ∧
      s'.section_type = be32 [70,73,76,69, 0,0,0,4, 80,70,70,50] 0 ∧
      s'.section_len = be32 [70,73,76,69, 0,0,0,4, 80,70,70,50] 4 ∧
      s'.section_start = 8 ∧
      (b = false ↔ s'.section_len = 0xFFFFFFFF) :=
  read_section_spec [70,73,76,69, 0,0,0,4, 80,70,70,50] newLoader
    (by decide) (by decide)

/-- C10: the glyph header is read at the stored offset taken as an absolute
position in the whole input buffer: when 10 bytes exist at `off` the five
header fields are the big-endian values at `off, off+2, .., off+8`, and when
the whole buffer ends before `off + 10` the data-section parse of an index
entry carrying `off` fails with `TruncatedInput` regardless of any section
boundary. -/
theorem glyph_offset_absolute (data : List Nat) (off : Nat) :
    (off + 10 ≤ data.length →
      read_char_def data off =
        .ok ({ width := be16 data off, height := be16 data (off + 2),
               x_offset := toI16 (be16 data (off + 4)),
               y_offset := toI16 (be16 data (off + 6)),
               device_width := toI16 (be16 data (off + 8)) }, off + 10)) ∧
    (data.length < off + 10 → ∀ s cp i, s.character_index = [(cp, off, i)] →
      s.max_width ≠ 0 → s.max_height ≠ 0 →
      parse_data_section data s = .err .truncatedInput) := by
  constructor
  · intro h
    unfold read_char_def
    rw [if_pos h]
  · intro h s cp i hidx hmw hmh
    have hrc : read_char_def data off = .err .truncatedInput := by
      unfold read_char_def
      rw [if_neg (by omega)]
    unfold parse_data_section
    rw [hidx]
    rw [if_neg (by simp), if_neg hmw, if_neg hmh]
    dsimp only
    simp only [glyphLoop, hrc]

/-- C10 witness: the header read at absolute offset 0 of a 10-byte buffer. -/
theorem glyph_offset_absolute_witness :
    read_char_def [0,3, 0,2, 0,5, 255,255, 0,7] 0 =
      .ok ({ width := 3, height := 2, x_offset := 5, y_offset := -1,
             device_width := 7 }, 10) :=
  ((glyph_offset_absolute [0,3, 0,2, 0,5, 255,255, 0,7] 0).1 (by decide)).trans
    (by decide)

/-- C2 counterexample: a character-index section holding the single record
`(code point 65, flags 1, offset 10)` makes `parse_character_index` hit the
`assert!(flags & 0b111 == 0)` and panic; the result is not a returned
(recoverable) error value of any kind. -/
theorem invalid_flags_cex :
    parse_character_index [0,0,0,65, 1, 0,0,0,10]
      { newLoader with section_len := 9 } = .panicked ∧
    (parse_character_index [0,0,0,65, 1, 0,0,0,10]
      { newLoader with section_len := 9 }).isErr = false := by decide

end PF2

namespace PF2

/-- The record loop of `parse_character_index` panics on the assertion of
record `k` whenever the first `k` records are readable with valid flags and
record `k` is readable with an invalid flags byte. -/
theorem ciLoop_panics (data : List Nat) :
    ∀ (k n pos : Nat) (m : List (Nat × Nat × Nat)), k < n →
      pos + 9 * k + 9 ≤ data.length →
      (∀ j < k, byteAt data (pos + 9 * j + 4) &&& 7 = 0) →
      byteAt data (pos + 9 * k + 4) &&& 7 ≠ 0 →
      ciLoop data n pos m = .panicked := by
  intro k
  induction k with
  | zero =>
    intro n pos m hk hbound _ hflag
    cases n with
    | zero => omega
    | succ n' =>
      have hf : byteAt data (pos + 4) &&& 7 ≠ 0 := by
        have he : pos + 9 * 0 + 4 = pos + 4 := by ring
        rw [he] at hflag
        exact hflag
      unfold ciLoop
      rw [if_pos (by omega), if_neg hf]
  | succ k ih =>
    intro n pos m hk hbound hprev hflag
    cases n with
    | zero => omega
    | succ n' =>
      have hf0 : byteAt data (pos + 4) &&& 7 = 0 := by
        have he : pos + 9 * 0 + 4 = pos + 4 := by ring
        rw [← he]
        exact hprev 0 (by omega)
      unfold ciLoop
      rw [if_pos (by omega), if_pos hf0]
      refine ih n' (pos + 9) _ (by omega) (by omega) ?_ ?_
      · intro j hj
        have he : pos + 9 + 9 * j + 4 = pos + 9 * (j + 1) + 4 := by ring
        rw [he]
        exact hprev (j + 1) (by omega)
      · have he : pos + 9 + 9 * k + 4 = pos + 9 * (k + 1) + 4 := by ring
        rw [he]
        exact hflag

/-- C2 amended: a character-index record whose flags byte has any of its low
3 bits set makes `parse_character_index` abort with a panic (the failed
`assert!`), not return a recoverable error: this holds for the first such
record of any section whose earlier records are readable and valid. -/
theorem invalid_flags_panics (data : List Nat) (s : LoaderState) (k : Nat)
    (hempty : s.character_index = []) (hmod : s.section_len % 9 = 0)
    (hk : k < s.section_len / 9) (hbound : s.pos + 9 * k + 9 ≤ data.length)
    (hprev : ∀ j < k, byteAt data (s.pos + 9 * j + 4) &&& 7 = 0)
    (hflag : byteAt data (s.pos + 9 * k + 4) &&& 7 ≠ 0) :
    parse_character_index data s = .panicked := by
  have hloop := ciLoop_panics data k (s.section_len / 9) s.pos s.character_index
    hk hbound hprev hflag
  unfold parse_character_index
  rw [hempty] at hloop ⊢
  rw [if_neg (by simp), if_neg (by simp [hmod])]
  rw [hloop]

/-- C2 witness: a two-record section whose second record has flags byte 4
(bit 2 set) panics via `invalid_flags_panics`. -/
theorem invalid_flags_panics_witness :
    parse_character_index [0,0,0,66, 0, 0,0,0,5, 0,0,0,67, 4, 0,0,0,6]
      { newLoader with section_len := 18 } = .panicked :=
  invalid_flags_panics [0,0,0,66, 0, 0,0,0,5, 0,0,0,67, 4, 0,0,0,6]
    { newLoader with section_len := 18 } 1 (by decide) (by decide) (by decide)
    (by decide)
    (fun j hj => by
      have hj0 : j = 0 := by omega
      subst hj0
      decide)
    (by decide)

/-- C7 counterexample: a first section whose 4-byte tag is not valid UTF-8
(all `0xFF`) and is not `FILE` makes `load` fail with the encoding error
raised while formatting the tag, not with `BadSignature` as claimed. -/
theorem wrong_tag_encoding_cex :
    load [255,255,255,255, 0,0,0,0] = .err .encodingError ∧
    FormatError.encodingError ≠ FormatError.badSignature := by decide

end PF2

namespace PF2

/-- C7 amended: `load` proceeds past the signature check only when the first
section's tag is `FILE` and its body is `"PFF2"`.  A wrong tag fails with
`BadSignature` when the tag bytes decode as UTF-8 and with the encoding
error otherwise; a `FILE` tag with an in-range body that differs from
`"PFF2"` fails with `BadMagic` when the body decodes as UTF-8 and with the
encoding error otherwise (and an out-of-range body panics, see the
`section_as_str` behaviour of `read_section_truncation`). -/
theorem load_signature_check (data : List Nat) (h8 : 8 ≤ data.length) :
    (be32 data 0 ≠ tagFILE →
      load data = .err (if utf8Valid (data.take 4) then .badSignature
                        else .encodingError)) ∧
    (be32 data 0 = tagFILE → 8 + be32 data 4 ≤ data.length →
      (data.drop 8).take (be32 data 4) ≠ pff2Magic →
      load data = .err (if utf8Valid ((data.drop 8).take (be32 data 4))
                        then .badMagic else .encodingError)) := by
  have e0 : newLoader.section_start + newLoader.section_len = 0 := rfl
  have hrs : read_section data newLoader =
      .ok (decide (be32 data 4 < 4294967295),
        { newLoader with section_type := be32 data 0, section_len := be32 data 4,
                         section_start := 8, pos := 8 }) := by
    unfold read_section
    dsimp only
    rw [e0]
    rw [if_pos (by omega)]
  constructor
  · intro hne
    unfold load
    rw [hrs]
    dsimp only
    rw [if_neg hne]
    unfold section_type_as_str
    dsimp only
    rw [if_neg (by omega), if_pos (by omega)]
    norm_num [List.drop_zero]
    by_cases hu : utf8Valid (data.take 4) = true
    · rw [if_pos hu, if_pos hu]
    · rw [if_neg hu, if_neg hu]
  · intro heq hlen hmag
    unfold load
    rw [hrs]
    dsimp only
    rw [if_pos heq]
    unfold section_as_str
    dsimp only
    rw [if_pos (by omega)]
    by_cases hu : utf8Valid ((data.drop 8).take (be32 data 4)) = true
    · rw [if_pos hu, if_pos hu]
      dsimp only
      rw [if_neg hmag]
    · rw [if_neg hu, if_neg hu]

/-- C7 witness: a readable but wrong tag `"XXXX"` fails with
`BadSignature`. -/
theorem load_signature_check_witness :
    load [88,88,88,88, 0,0,0,0] = .err .badSignature :=
  ((load_signature_check [88,88,88,88, 0,0,0,0] (by decide)).1
    (by decide)).trans (by decide)

end PF2

namespace PF2

/-- Whether the glyph decode loop succeeds depends only on the geometry
fields of the state (in particular not on `point_size`, which only enters
the metric divisions of the produced `FontGlyph` values). -/
theorem glyphLoop_geomEq (data : List Nat) :
    ∀ (entries : List (Nat × Nat × Nat)) (s1 s2 : LoaderState), GeomEq s1 s2 →
      (glyphLoop data s1 entries).isOk = (glyphLoop data s2 entries).isOk := by
  intro entries
  induction entries with
  | nil => intro s1 s2 _; rfl
  | cons e rest ih =>
    intro s1 s2 hg
    obtain ⟨cp, off, idx⟩ := e
    obtain ⟨e1, e2, e3, e4, e5⟩ := hg
    simp only [glyphLoop]
    cases hrc : read_char_def data off with
    | panicked => rfl
    | err e => rfl
    | ok dp =>
      obtain ⟨d, pos'⟩ := dp
      unfold parse_char_bitmap
      rw [e1, e2, e3, e4, e5]
      dsimp only
      cases hdg : drawGlyph data pos' d.width s2.texture_width
          (cell_origin idx s2.col_count s2.max_width s2.max_height).1
          (cell_origin idx s2.col_count s2.max_width s2.max_height).2
          d.height s2.texture_data with
      | panicked => rfl
      | err e => rfl
      | ok t => exact ih _ _ ⟨rfl, rfl, rfl, rfl, rfl⟩

/-- C3 amended: `parse_data_section` validates only the non-emptiness of the
character index and the non-zeroness of `max_width` and `max_height`; a zero
(absent) `point_size` is never rejected — whether the data section parses
successfully is entirely independent of the `point_size` value, and the
glyph normalisation divides by it unchecked. -/
theorem parse_data_ignores_point_size (data : List Nat) (s : LoaderState) (p : Nat) :
    (parse_data_section data { s with point_size := p }).isOk =
    (parse_data_section data s).isOk := by
  unfold parse_data_section
  dsimp only
  by_cases h1 : s.character_index.isEmpty = true
  · rw [if_pos h1, if_pos h1]
  · rw [if_neg h1, if_neg h1]
    by_cases h2 : s.max_width = 0
    · rw [if_pos h2, if_pos h2]
    · rw [if_neg h2, if_neg h2]
      by_cases h3 : s.max_height = 0
      · rw [if_pos h3, if_pos h3]
      · rw [if_neg h3, if_neg h3]
        exact glyphLoop_geomEq data s.character_index _ _ ⟨rfl, rfl, rfl, rfl, rfl⟩

/-- Complete well-formed font file with `max_width = max_height = 8`, one
indexed glyph at absolute offset 57 — and no `PTSZ` section at all, so the
loader's `point_size` stays 0 throughout. -/
def c3buf : List Nat :=
  [70,73,76,69, 0,0,0,4, 80,70,70,50,
   77,65,88,87, 0,0,0,2, 0,8,
   77,65,88,72, 0,0,0,2, 0,8,
   67,72,73,88, 0,0,0,9, 0,0,0,65, 0, 0,0,0,57,
   68,65,84,65, 255,255,255,255,
   0,1, 0,1, 0,0, 0,0, 0,0, 128]

/-- C3 counterexample: `load` on `c3buf` (which carries no point size, so
`point_size` is 0 when the data section is reached) succeeds and produces a
glyph for code point 65 — a zero `point_size` is not rejected as an error
before glyph normalisation. -/
theorem zero_point_size_cex :
    (load c3buf).isOk = true ∧
    (match load c3buf with
     | .ok (_, glyphs) => (assocFind glyphs 65).isSome
     | _ => false) = true := by decide

end PF2

namespace PF2

/-- Replacing key `c` in place leaves lookups of other keys unchanged. -/
theorem assocFind_map_ne {α : Type} (m : List (Nat × α)) (c k : Nat) (v : α)
    (h : c ≠ k) :
    assocFind (m.map fun e => if e.1 = c then (c, v) else e) k = assocFind m k := by
  induction m with
  | nil => rfl
  | cons a rest ih =>
    obtain ⟨a1, a2⟩ := a
    simp only [List.map_cons]
    dsimp only
    by_cases hc : a1 = c
    · rw [if_pos hc]
      simp only [assocFind]
      rw [if_neg h, if_neg (show ¬ a1 = k by rw [hc]; exact h)]
      exact ih
    · rw [if_neg hc]
      simp only [assocFind]
      by_cases hk : a1 = k
      · rw [if_pos hk, if_pos hk]
      · rw [if_neg hk, if_neg hk]
        exact ih

/-- Replacing a present key `c` in place makes its lookup return the new
value. -/
theorem assocFind_map_eq {α : Type} (m : List (Nat × α)) (c : Nat) (v : α)
    (h : (assocFind m c).isSome = true) :
    assocFind (m.map fun e => if e.1 = c then (c, v) else e) c = some v := by
  induction m with
  | nil => simp [assocFind] at h
  | cons a rest ih =>
    obtain ⟨a1, a2⟩ := a
    simp only [List.map_cons]
    dsimp only
    by_cases hc : a1 = c
    · rw [if_pos hc]
      simp [assocFind]
    · rw [if_neg hc]
      simp only [assocFind, if_neg hc]
      simp only [assocFind, if_neg hc] at h
      exact ih h

/-- Appending a fresh key at the end makes its lookup return the new
value. -/
theorem assocFind_append_eq {α : Type} (m : List (Nat × α)) (c : Nat) (v : α)
    (h : (assocFind m c).isSome = false) :
    assocFind (m ++ [(c, v)]) c = some v := by
  induction m with
  | nil => simp [assocFind]
  | cons a rest ih =>
    obtain ⟨a1, a2⟩ := a
    by_cases hc : a1 = c
    · simp only [assocFind, if_pos hc] at h
      simp at h
    · simp only [List.cons_append, assocFind, if_neg hc]
      simp only [assocFind, if_neg hc] at h
      exact ih h

/-- Appending an entry for key `c` leaves lookups of other keys unchanged. -/
theorem assocFind_append_ne {α : Type} (m : List (Nat × α)) (c k : Nat) (v : α)
    (h : c ≠ k) :
    assocFind (m ++ [(c, v)]) k = assocFind m k := by
  induction m with
  | nil => simp [assocFind, if_neg h]
  | cons a rest ih =>
    obtain ⟨a1, a2⟩ := a
    simp only [List.cons_append, assocFind]
    by_cases hk : a1 = k
    · rw [if_pos hk, if_pos hk]
    · rw [if_neg hk, if_neg hk]
      exact ih

/-- Lookup after a `HashMap::insert`: the inserted key maps to the new
value, every other key is untouched. -/
theorem assocFind_assocInsert {α : Type} (m : List (Nat × α)) (c k : Nat) (v : α) :
    assocFind (assocInsert m c v) k = if c = k then some v else assocFind m k := by
  unfold assocInsert
  by_cases hp : (assocFind m c).isSome = true
  · rw [if_pos hp]
    by_cases hck : c = k
    · subst hck
      rw [if_pos rfl]
      exact assocFind_map_eq m c v hp
    · rw [if_neg hck]
      exact assocFind_map_ne m c k v hck
  · rw [if_neg hp]
    by_cases hck : c = k
    · subst hck
      rw [if_pos rfl]
      exact assocFind_append_eq m c v (by simpa using hp)
    · rw [if_neg hck]
      exact assocFind_append_ne m c k v hck

/-- `HashMap::len` after insert: unchanged on a present key, one more on a
fresh key. -/
theorem length_assocInsert {α : Type} (m : List (Nat × α)) (c : Nat) (v : α) :
    (assocInsert m c v).length =
      if (assocFind m c).isSome then m.length else m.length + 1 := by
  unfold assocInsert
  split_ifs <;> simp

/-- A key occurs in the map exactly when its lookup succeeds. -/
theorem mem_keys_isSome {α : Type} (m : List (Nat × α)) (k : Nat) :
    k ∈ m.map Prod.fst ↔ (assocFind m k).isSome = true := by
  induction m with
  | nil => simp [assocFind]
  | cons a rest ih =>
    obtain ⟨a1, a2⟩ := a
    simp only [List.map_cons, List.mem_cons, assocFind]
    by_cases hk : a1 = k
    · simp [hk]
    · rw [if_neg hk]
      simp only [ih]
      constructor
      · intro hor
        cases hor with
        | inl hl => exact absurd hl.symm hk
        | inr hr => exact hr
      · intro hs
        exact Or.inr hs

/-- Key sequence after insert: unchanged on a present key, the new key
appended on a fresh one. -/
theorem keys_assocInsert {α : Type} (m : List (Nat × α)) (c : Nat) (v : α) :
    (assocInsert m c v).map Prod.fst =
      if (assocFind m c).isSome then m.map Prod.fst else m.map Prod.fst ++ [c] := by
  unfold assocInsert
  split_ifs with h
  · rw [List.map_map]
    apply List.map_congr_left
    intro e _
    by_cases hc : e.1 = c
    · simp [Function.comp, hc]
    · simp [Function.comp, hc]
  · simp

/-- Key membership after insert. -/
theorem mem_keys_assocInsert {α : Type} (m : List (Nat × α)) (c k : Nat) (v : α) :
    k ∈ (assocInsert m c v).map Prod.fst ↔ k ∈ m.map Prod.fst ∨ k = c := by
  rw [keys_assocInsert]
  split_ifs with h
  · constructor
    · exact Or.inl
    · intro hor
      cases hor with
      | inl hl => exact hl
      | inr hr => subst hr; exact (mem_keys_isSome m k).2 h
  · simp

/-- Insertion preserves distinctness of the stored keys. -/
theorem nodup_keys_assocInsert {α : Type} (m : List (Nat × α)) (c : Nat) (v : α)
    (h : (m.map Prod.fst).Nodup) : ((assocInsert m c v).map Prod.fst).Nodup := by
  rw [keys_assocInsert]
  split_ifs with hp
  · exact h
  · have hc : c ∉ m.map Prod.fst := by
      intro hmem
      exact hp ((mem_keys_isSome m c).1 hmem)
    simp [List.nodup_append, h, hc]

/-- The record fold splits along list concatenation. -/
theorem foldRecs_append (m rs1 rs2 : List (Nat × Nat × Nat)) :
    foldRecs m (rs1 ++ rs2) = foldRecs (foldRecs m rs1) rs2 := by
  simp [foldRecs, List.foldl_append]

/-- Keys present after folding a record list: the initial keys plus the
records' code points. -/
theorem mem_keys_foldRecs (k : Nat) :
    ∀ (rs m : List (Nat × Nat × Nat)),
      k ∈ (foldRecs m rs).map Prod.fst ↔
        k ∈ m.map Prod.fst ∨ k ∈ rs.map (fun r => r.1) := by
  intro rs
  induction rs with
  | nil => intro m; simp [foldRecs]
  | cons r rest ih =>
    intro m
    have hstep : foldRecs m (r :: rest) = foldRecs (ciInsert m r.1 r.2.2) rest := rfl
    rw [hstep, ih]
    unfold ciInsert
    rw [mem_keys_assocInsert]
    simp only [List.map_cons, List.mem_cons]
    tauto

/-- Folding a record list preserves distinctness of the stored keys. -/
theorem nodup_keys_foldRecs :
    ∀ (rs m : List (Nat × Nat × Nat)),
      (m.map Prod.fst).Nodup → ((foldRecs m rs).map Prod.fst).Nodup := by
  intro rs
  induction rs with
  | nil => intro m h; exact h
  | cons r rest ih =>
    intro m h
    exact ih _ (nodup_keys_assocInsert m r.1 _ h)

/-- The size of the index built from a record list is the number of
distinct code points among the records. -/
theorem length_foldRecs_nil (rs : List (Nat × Nat × Nat)) :
    (foldRecs [] rs).length = (rs.map (fun r => r.1)).dedup.length := by
  have h1 : ((foldRecs [] rs).map Prod.fst).Nodup :=
    nodup_keys_foldRecs rs [] (by simp)
  have h2 : (rs.map (fun r => r.1)).dedup.Nodup := List.nodup_dedup _
  have h3 : ∀ a, a ∈ (foldRecs [] rs).map Prod.fst ↔
      a ∈ (rs.map (fun r => r.1)).dedup := by
    intro a
    rw [List.mem_dedup, mem_keys_foldRecs]
    simp
  have hp := (List.perm_ext_iff_of_nodup h1 h2).2 h3
  have hl := hp.length_eq
  simpa using hl

/-- Records whose code points all differ from `k` do not affect the lookup
of `k`. -/
theorem assocFind_foldRecs_not_key (k : Nat) :
    ∀ (rs m : List (Nat × Nat × Nat)),
      (∀ r ∈ rs, r.1 ≠ k) → assocFind (foldRecs m rs) k = assocFind m k := by
  intro rs
  induction rs with
  | nil => intro m _; rfl
  | cons r rest ih =>
    intro m hne
    have hstep : foldRecs m (r :: rest) = foldRecs (ciInsert m r.1 r.2.2) rest := rfl
    rw [hstep, ih _ (fun q hq => hne q (List.mem_cons_of_mem r hq))]
    unfold ciInsert
    rw [assocFind_assocInsert]
    exact if_neg (hne r (List.mem_cons_self r rest))

/-- On a section whose bytes decode to the given records, all with valid
flags, the record loop returns the pure fold of the inserts. -/
theorem ciLoop_decoded (data : List Nat) :
    ∀ (n pos : Nat) (m rs : List (Nat × Nat × Nat)),
      decodeRecords data n pos = some rs →
      (∀ r ∈ rs, r.2.1 &&& 7 = 0) →
      ciLoop data n pos m = .ok (pos + 9 * n, foldRecs m rs) := by
  intro n
  induction n with
  | zero =>
    intro pos m rs hdec _
    simp only [decodeRecords, Option.some_inj] at hdec
    subst hdec
    simp [ciLoop, foldRecs]
  | succ n ih =>
    intro pos m rs hdec hflags
    simp only [decodeRecords] at hdec
    by_cases hb : pos + 9 ≤ data.length
    · rw [if_pos hb] at hdec
      cases hrec : decodeRecords data n (pos + 9) with
      | none => rw [hrec] at hdec; simp at hdec
      | some rs' =>
        rw [hrec] at hdec
        simp only [Option.some_inj] at hdec
        subst hdec
        have hflag0 : byteAt data (pos + 4) &&& 7 = 0 :=
          hflags (be32 data pos, byteAt data (pos + 4), be32 data (pos + 5))
            (List.mem_cons_self _ _)
        unfold ciLoop
        rw [if_pos hb, if_pos hflag0]
        have hrest := ih (pos + 9) (ciInsert m (be32 data pos) (be32 data (pos + 5)))
          rs' hrec (fun r hr => hflags r (List.mem_cons_of_mem _ hr))
        rw [hrest]
        have harith : pos + 9 + 9 * n = pos + 9 * (n + 1) := by ring
        rw [harith]
        rfl
    · rw [if_neg hb] at hdec
      simp at hdec

/-- C1 amended: when the character-index section contains several records
with the same code point, the resulting index maps that code point to the
offset of the LAST such record paired with a sequence index equal to the
number of DISTINCT code points among the records strictly before that last
record — the sequence index assigned when the code point was first seen is
overwritten, not kept (and the new index can collide with the index later
given to a fresh code point). -/
theorem character_index_duplicate_spec (data : List Nat) (s : LoaderState)
    (k : Nat) (rs1 rs2 : List (Nat × Nat × Nat)) (r : Nat × Nat × Nat)
    (hempty : s.character_index = [])
    (hlen : s.section_len = 9 * (rs1 ++ r :: rs2).length)
    (hdec : decodeRecords data (rs1 ++ r :: rs2).length s.pos = some (rs1 ++ r :: rs2))
    (hflags : ∀ q ∈ rs1 ++ r :: rs2, q.2.1 &&& 7 = 0)
    (hcp : r.1 = k)
    (hafter : ∀ q ∈ rs2, q.1 ≠ k) :
    ciLookup (parse_character_index data s) k =
      some (r.2.2, (rs1.map (fun q => q.1)).dedup.length) := by
  have hmod : s.section_len % 9 = 0 := by rw [hlen]; omega
  have hdiv : s.section_len / 9 = (rs1 ++ r :: rs2).length := by rw [hlen]; omega
  have hloop := ciLoop_decoded data ((rs1 ++ r :: rs2).length) s.pos [] _ hdec hflags
  have hfold : assocFind (foldRecs [] (rs1 ++ r :: rs2)) k =
      some (r.2.2, (rs1.map (fun q => q.1)).dedup.length) := by
    rw [foldRecs_append]
    have hstep : foldRecs (foldRecs [] rs1) (r :: rs2) =
        foldRecs (ciInsert (foldRecs [] rs1) r.1 r.2.2) rs2 := rfl
    rw [hstep]
    rw [assocFind_foldRecs_not_key k rs2 _ hafter]
    unfold ciInsert
    rw [assocFind_assocInsert]
    rw [if_pos hcp]
    rw [length_foldRecs_nil]
  unfold parse_character_index
  rw [hempty]
  rw [if_neg (by simp), if_neg (by simp [hmod]), hdiv, hloop]
  dsimp only [ciLookup]
  exact hfold

/-- C1 counterexample: records `(65 ↦ 10), (66 ↦ 20), (65 ↦ 30)` do NOT
leave code point 65 at its first-seen sequence index 0 with the later
offset 30 (the claimed last-offset-wins, first-index-wins behaviour);
the index actually maps 65 to offset 30 with sequence index 2 — the same
index a subsequently inserted fresh code point would receive. -/
theorem character_index_duplicate_cex :
    ciLookup (parse_character_index
      [0,0,0,65, 0, 0,0,0,10, 0,0,0,66, 0, 0,0,0,20, 0,0,0,65, 0, 0,0,0,30]
      { newLoader with section_len := 27 }) 65 ≠ some (30, 0) ∧
    ciLookup (parse_character_index
      [0,0,0,65, 0, 0,0,0,10, 0,0,0,66, 0, 0,0,0,20, 0,0,0,65, 0, 0,0,0,30]
      { newLoader with section_len := 27 }) 65 = some (30, 2) := by decide

/-- C1 witness: the amended statement instantiated on the three concrete
records above. -/
theorem character_index_duplicate_spec_witness :
    ciLookup (parse_character_index
      [0,0,0,65, 0, 0,0,0,10, 0,0,0,66, 0, 0,0,0,20, 0,0,0,65, 0, 0,0,0,30]
      { newLoader with section_len := 27 }) 65 = some (30, 2) :=
  (character_index_duplicate_spec
    [0,0,0,65, 0, 0,0,0,10, 0,0,0,66, 0, 0,0,0,20, 0,0,0,65, 0, 0,0,0,30]
    { newLoader with section_len := 27 } 65
    [(65, 0, 10), (66, 0, 20)] [] (65, 0, 30)
    (by decide) (by decide) (by decide) (by decide) (by decide)
    (by decide)).trans (by decide)

end PF2

namespace PF2

/-- Recover the quotient and remainder of a mixed-radix position: blocks of
size `n` are disjoint. -/
theorem block_inj (n a b r t : Nat) (hr : r < n) (ht : t < n)
    (h : a * n + r = b * n + t) : a = b ∧ r = t := by
  have hn : 0 < n := by omega
  have ha : (a * n + r) / n = a := by
    rw [Nat.mul_comm, Nat.mul_add_div hn, Nat.div_eq_of_lt hr]
    omega
  have hb : (b * n + t) / n = b := by
    rw [Nat.mul_comm, Nat.mul_add_div hn, Nat.div_eq_of_lt ht]
    omega
  have hab : a = b := by rw [← ha, ← hb, h]
  subst hab
  exact ⟨rfl, by omega⟩

/-- Characterisation of one row of the bitmap decode: bit `y * w + x`
(MSB first) of the packed stream decides whether position `j + x` receives
the white pixel, all other positions are untouched. -/
theorem drawRow_spec (data : List Nat) (base w y j : Nat) :
    ∀ (xs : List Nat) (t : List RGBA8),
      xs.Nodup →
      (∀ x ∈ xs, base + (y * w + x) / 8 < data.length) →
      (∀ x ∈ xs, j + x < t.length) →
      ∃ t', drawRow data base w y j xs t = .ok t' ∧ t'.length = t.length ∧
        (∀ x ∈ xs, t'.get? (j + x) =
          (if (byteAt data (base + (y * w + x) / 8)).testBit (7 - (y * w + x) % 8)
           then some whiteRGBA else t.get? (j + x))) ∧
        (∀ p, (∀ x ∈ xs, p ≠ j + x) → t'.get? p = t.get? p) := by
  intro xs
  induction xs with
  | nil =>
    intro t _ _ _
    exact ⟨t, rfl, rfl, by simp, fun p _ => rfl⟩
  | cons x xs ih =>
    intro t hnd hdata hlen
    have hx_data := hdata x (List.mem_cons_self x xs)
    have hx_len := hlen x (List.mem_cons_self x xs)
    have hx_not : x ∉ xs := (List.nodup_cons.mp hnd).1
    have hnd' : xs.Nodup := (List.nodup_cons.mp hnd).2
    by_cases hbit : (byteAt data (base + (y * w + x) / 8)).testBit
        (7 - (y * w + x) % 8) = true
    · obtain ⟨t', heq, hlen', hval, hframe⟩ := ih (t.set (j + x) whiteRGBA) hnd'
        (fun x' hx' => hdata x' (List.mem_cons_of_mem x hx'))
        (fun x' hx' => by
          rw [List.length_set]
          exact hlen x' (List.mem_cons_of_mem x hx'))
      refine ⟨t', ?_, ?_, ?_, ?_⟩
      · unfold drawRow drawPixel
        dsimp only
        rw [if_pos hx_data, if_pos hbit, if_pos hx_len]
        exact heq
      · rw [hlen', List.length_set]
      · intro x' hx'
        rcases List.mem_cons.mp hx' with hxx | hmem
        · subst hxx
          have hfr : ∀ x'' ∈ xs, j + x' ≠ j + x'' := by
            intro x'' hx'' hpe
            have hxe : x' = x'' := by omega
            exact hx_not (hxe ▸ hx'')
          rw [hframe (j + x') hfr, List.get?_set_eq_of_lt _ hx_len, if_pos hbit]
        · rw [hval x' hmem]
          have hne : j + x ≠ j + x' := by
            intro hpe
            have hxe : x = x' := by omega
            exact hx_not (hxe ▸ hmem)
          rw [List.get?_set_ne _ _ hne]
      · intro p hp
        rw [hframe p (fun x' hx' => hp x' (List.mem_cons_of_mem x hx'))]
        exact List.get?_set_ne _ _ (fun hpe => hp x (List.mem_cons_self x xs) hpe.symm)
    · obtain ⟨t', heq, hlen', hval, hframe⟩ := ih t hnd'
        (fun x' hx' => hdata x' (List.mem_cons_of_mem x hx'))
        (fun x' hx' => hlen x' (List.mem_cons_of_mem x hx'))
      refine ⟨t', ?_, hlen', ?_, ?_⟩
      · unfold drawRow drawPixel
        dsimp only
        rw [if_pos hx_data, if_neg hbit]
        exact heq
      · intro x' hx'
        rcases List.mem_cons.mp hx' with hxx | hmem
        · subst hxx
          have hfr : ∀ x'' ∈ xs, j + x' ≠ j + x'' := by
            intro x'' hx'' hpe
            have hxe : x' = x'' := by omega
            exact hx_not (hxe ▸ hx'')
          rw [hframe (j + x') hfr, if_neg hbit]
        · exact hval x' hmem
      · intro p hp
        exact hframe p (fun x' hx' => hp x' (List.mem_cons_of_mem x hx'))

/-- Distinct in-row positions of a glyph whose row fits inside the texture
width are distinct linear texture positions. -/
theorem row_pos_inj (texW x0 w y0 : Nat) (hw : x0 + w ≤ texW)
    (y x y' x' : Nat) (hx : x < w) (hx' : x' < w)
    (h : (y0 + y) * texW + (x0 + x) = (y0 + y') * texW + (x0 + x')) :
    y = y' ∧ x = x' := by
  obtain ⟨ha, hb⟩ := block_inj texW (y0 + y) (y0 + y') (x0 + x) (x0 + x')
    (by omega) (by omega) h
  exact ⟨by omega, by omega⟩

/-- Characterisation of the row loop of the bitmap decode over any set of
row numbers. -/
theorem drawRows_spec (data : List Nat) (base w texW x0 y0 : Nat)
    (hw : x0 + w ≤ texW) :
    ∀ (ys : List Nat) (t : List RGBA8),
      ys.Nodup →
      (∀ y ∈ ys, ∀ x, x < w → base + (y * w + x) / 8 < data.length) →
      (∀ y ∈ ys, (y0 + y + 1) * texW ≤ t.length) →
      ∃ t', drawRows data base w texW x0 y0 ys t = .ok t' ∧ t'.length = t.length ∧
        (∀ y ∈ ys, ∀ x, x < w →
          t'.get? ((y0 + y) * texW + (x0 + x)) =
            (if (byteAt data (base + (y * w + x) / 8)).testBit (7 - (y * w + x) % 8)
             then some whiteRGBA else t.get? ((y0 + y) * texW + (x0 + x)))) ∧
        (∀ p, (∀ y ∈ ys, ∀ x, x < w → p ≠ (y0 + y) * texW + (x0 + x)) →
          t'.get? p = t.get? p) := by
  intro ys
  induction ys with
  | nil =>
    intro t _ _ _
    exact ⟨t, rfl, rfl, by simp, fun p _ => rfl⟩
  | cons y ys ih =>
    intro t hnd hdata hlen
    have hy_not : y ∉ ys := (List.nodup_cons.mp hnd).1
    have hnd' : ys.Nodup := (List.nodup_cons.mp hnd).2
    obtain ⟨t1, hr, hlen1, hval1, hframe1⟩ := drawRow_spec data base w y
      ((y0 + y) * texW + x0) (List.range w) t (List.nodup_range w)
      (fun x hx => hdata y (List.mem_cons_self y ys) x (List.mem_range.mp hx))
      (fun x hx => by
        have hxw := List.mem_range.mp hx
        have hrow := hlen y (List.mem_cons_self y ys)
        have he : (y0 + y + 1) * texW = (y0 + y) * texW + texW := by ring
        omega)
    obtain ⟨t', heq, hlen', hval, hframe⟩ := ih t1 hnd'
      (fun y' hy' x hx => hdata y' (List.mem_cons_of_mem y hy') x hx)
      (fun y' hy' => by rw [hlen1]; exact hlen y' (List.mem_cons_of_mem y hy'))
    refine ⟨t', ?_, by rw [hlen', hlen1], ?_, ?_⟩
    · unfold drawRows
      rw [hr]
      exact heq
    · intro y' hy' x hx
      rcases List.mem_cons.mp hy' with hyy | hmem
      · subst hyy
        have hfr : ∀ y'' ∈ ys, ∀ x'', x'' < w →
            (y0 + y') * texW + (x0 + x) ≠ (y0 + y'') * texW + (x0 + x'') := by
          intro y'' hy'' x'' hx'' hpe
          obtain ⟨hye, _⟩ := row_pos_inj texW x0 w y0 hw y' x y'' x'' hx hx'' hpe
          exact hy_not (hye ▸ hy'')
        rw [hframe _ hfr]
        have hjx : (y0 + y') * texW + (x0 + x) = ((y0 + y') * texW + x0) + x := by
          ring
        rw [hjx]
        rw [hval1 x (List.mem_range.mpr hx)]
      · rw [hval y' hmem x hx]
        have hfr1 : ∀ x'' ∈ List.range w,
            (y0 + y') * texW + (x0 + x) ≠ ((y0 + y) * texW + x0) + x'' := by
          intro x'' hx'' hpe
          have hpe' : (y0 + y') * texW + (x0 + x) = (y0 + y) * texW + (x0 + x'') := by
            rw [hpe]; ring
          obtain ⟨hye, _⟩ := row_pos_inj texW x0 w y0 hw y' x y x'' hx
            (List.mem_range.mp hx'') hpe'
          exact hy_not (hye ▸ hmem)
        rw [hframe1 _ hfr1]
    · intro p hp
      rw [hframe p (fun y' hy' x hx => hp y' (List.mem_cons_of_mem y hy') x hx)]
      exact hframe1 p (fun x hx hpe =>
        hp y (List.mem_cons_self y ys) x (List.mem_range.mp hx) (by rw [hpe]; ring))

/-- C9: for every glyph placed inside the atlas, bitmap bits are consumed
row-major, MSB first, with the bit index running across row boundaries: bit
`y * width + x` of the packed stream (byte `base + i / 8`, bit `7 - i % 8`)
controls pixel `(x, y)`; a set bit writes the opaque white pixel
`(255,255,255,255)` at the corresponding atlas position and a clear bit
performs no write, leaving the previous pixel unchanged (and no other
position of the atlas is touched at all). -/
theorem draw_glyph_bits (data : List Nat) (base w h texW x0 y0 : Nat)
    (t : List RGBA8) (hw : x0 + w ≤ texW) (hh : (y0 + h) * texW ≤ t.length)
    (hdata : ∀ i, i < w * h → base + i / 8 < data.length) :
    ∃ t', drawGlyph data base w texW x0 y0 h t = .ok t' ∧ t'.length = t.length ∧
      (∀ x y, x < w → y < h →
        t'.get? ((y0 + y) * texW + (x0 + x)) =
          (if (byteAt data (base + (y * w + x) / 8)).testBit (7 - (y * w + x) % 8)
           then some whiteRGBA else t.get? ((y0 + y) * texW + (x0 + x)))) ∧
      (∀ p, (∀ x y, x < w → y < h → p ≠ (y0 + y) * texW + (x0 + x)) →
        t'.get? p = t.get? p) := by
  obtain ⟨t', heq, hlen, hval, hframe⟩ := drawRows_spec data base w texW x0 y0 hw
    (List.range h) t (List.nodup_range h)
    (fun y hy x hx => hdata (y * w + x) (by
      have hyh := List.mem_range.mp hy
      have he1 : (y + 1) * w = y * w + w := by ring
      have he2 : (y + 1) * w ≤ h * w := Nat.mul_le_mul_right w (by omega)
      have he3 : h * w = w * h := by ring
      omega))
    (fun y hy => by
      have hyh := List.mem_range.mp hy
      have hmono : (y0 + y + 1) * texW ≤ (y0 + h) * texW :=
        Nat.mul_le_mul_right texW (by omega)
      omega)
  exact ⟨t', heq, hlen,
    fun x y hx hy => hval y (List.mem_range.mpr hy) x hx,
    fun p hp => hframe p (fun y hy x hx => hp x y hx (List.mem_range.mp hy))⟩

/-- C9 witness: the single-bit glyph `[0x80]` decoded into a 1×1 atlas. -/
theorem draw_glyph_bits_witness :
    ∃ t', drawGlyph [128] 0 1 1 0 0 1 (List.replicate 1 defaultRGBA) = .ok t' ∧
      t'.length = (List.replicate 1 defaultRGBA).length ∧
      (∀ x y, x < 1 → y < 1 →
        t'.get? ((0 + y) * 1 + (0 + x)) =
          (if (byteAt [128] (0 + (y * 1 + x) / 8)).testBit (7 - (y * 1 + x) % 8)
           then some whiteRGBA
           else (List.replicate 1 defaultRGBA).get? ((0 + y) * 1 + (0 + x)))) ∧
      (∀ p, (∀ x y, x < 1 → y < 1 → p ≠ (0 + y) * 1 + (0 + x)) →
        t'.get? p = (List.replicate 1 defaultRGBA).get? p) :=
  draw_glyph_bits [128] 0 1 1 1 0 0 (List.replicate 1 defaultRGBA)
    (by omega) (by simp) (fun i hi => by simp at hi ⊢; omega)

end PF2

namespace PF2

/-- Positions other than the written one are untouched by a single pixel
step, whenever the step completes normally. -/
theorem drawPixel_frame (data : List Nat) (base w y x j : Nat)
    (t t1 : List RGBA8) (h : drawPixel data base w y x j t = .ok t1)
    (p : Nat) (hne : p ≠ j + x) : t1.get? p = t.get? p := by
  unfold drawPixel at h
  dsimp only at h
  split_ifs at h with h1 h2 h3 <;>
    first
      | (cases h; exact List.get?_set_ne _ _ (fun hpe => hne hpe.symm))
      | (cases h; rfl)

/-- Positions outside a row's write range are untouched by the row loop,
whenever it completes normally (no in-bounds hypotheses needed). -/
theorem drawRow_frame (data : List Nat) (base w y j : Nat) :
    ∀ (xs : List Nat) (t t' : List RGBA8),
      drawRow data base w y j xs t = .ok t' →
      ∀ p, (∀ x ∈ xs, p ≠ j + x) → t'.get? p = t.get? p := by
  intro xs
  induction xs with
  | nil =>
    intro t t' heq p _
    simp only [drawRow, Outcome.ok.injEq] at heq
    rw [heq]
  | cons x xs ih =>
    intro t t' heq p hp
    simp only [drawRow] at heq
    cases hdp : drawPixel data base w y x j t with
    | err e => rw [hdp] at heq; cases heq
    | panicked => rw [hdp] at heq; cases heq
    | ok t1 =>
      rw [hdp] at heq
      have hstep := ih t1 t' heq p (fun x' hx' => hp x' (List.mem_cons_of_mem x hx'))
      rw [hstep]
      exact drawPixel_frame data base w y x j t t1 hdp p
        (hp x (List.mem_cons_self x xs))

/-- Positions outside every processed row are untouched by the rows loop,
whenever it completes normally. -/
theorem drawRows_frame (data : List Nat) (base w texW x0 y0 : Nat) :
    ∀ (ys : List Nat) (t t' : List RGBA8),
      drawRows data base w texW x0 y0 ys t = .ok t' →
      ∀ p, (∀ y ∈ ys, ∀ x, x < w → p ≠ (y0 + y) * texW + (x0 + x)) →
        t'.get? p = t.get? p := by
  intro ys
  induction ys with
  | nil =>
    intro t t' heq p _
    simp only [drawRows, Outcome.ok.injEq] at heq
    rw [heq]
  | cons y ys ih =>
    intro t t' heq p hp
    simp only [drawRows] at heq
    cases hdr : drawRow data base w y ((y0 + y) * texW + x0) (List.range w) t with
    | err e => rw [hdr] at heq; cases heq
    | panicked => rw [hdr] at heq; cases heq
    | ok t1 =>
      rw [hdr] at heq
      have hstep := ih t1 t' heq p
        (fun y' hy' x hx => hp y' (List.mem_cons_of_mem y hy') x hx)
      rw [hstep]
      exact drawRow_frame data base w y _ (List.range w) t t1 hdr p
        (fun x hx hpe =>
          hp y (List.mem_cons_self y ys) x (List.mem_range.mp hx) (by rw [hpe]; ring))

/-- Every position changed by a completed glyph decode lies in the glyph's
declared `width × height` write range at its cell origin. -/
theorem drawGlyph_frame (data : List Nat) (base w texW x0 y0 h : Nat)
    (t t' : List RGBA8) (heq : drawGlyph data base w texW x0 y0 h t = .ok t') :
    ∀ p, (∀ x y, x < w → y < h → p ≠ (y0 + y) * texW + (x0 + x)) →
      t'.get? p = t.get? p := by
  intro p hp
  exact drawRows_frame data base w texW x0 y0 (List.range h) t t' heq p
    (fun y hy x hx => hp x y hx (List.mem_range.mp hy))

/-- Membership of a linear texture position in a glyph cell, spelled out. -/
theorem inCellB_iff (c mw mh texW i p : Nat) :
    inCellB c mw mh texW i p = true ↔
      ∃ x, x < mw ∧ ∃ y, y < mh ∧
        p = (i / c * mh + y) * texW + (i % c * mw + x) := by
  unfold inCellB
  simp only [List.any_eq_true, List.mem_range, beq_iff_eq]

/-- A linear texture position inside a glyph cell determines the cell:
distinct sequence indices have disjoint cells (when the texture width is
`col_count * max_width`). -/
theorem cell_pos_inj (c mw mh texW : Nat) (hc : 0 < c)
    (htw : texW = c * mw) (i k x y x' y' : Nat)
    (hx : x < mw) (hy : y < mh) (hx' : x' < mw) (hy' : y' < mh)
    (h : (i / c * mh + y) * texW + (i % c * mw + x) =
         (k / c * mh + y') * texW + (k % c * mw + x')) : i = k := by
  have himod : i % c < c := Nat.mod_lt i hc
  have hkmod : k % c < c := Nat.mod_lt k hc
  have hri : i % c * mw + x < texW := by
    rw [htw]
    have hmul : (i % c + 1) * mw ≤ c * mw := Nat.mul_le_mul_right mw (by omega)
    have he : (i % c + 1) * mw = i % c * mw + mw := by ring
    omega
  have hrk : k % c * mw + x' < texW := by
    rw [htw]
    have hmul : (k % c + 1) * mw ≤ c * mw := Nat.mul_le_mul_right mw (by omega)
    have he : (k % c + 1) * mw = k % c * mw + mw := by ring
    omega
  obtain ⟨hrow, hcol⟩ := block_inj texW _ _ _ _ hri hrk h
  obtain ⟨hdiv, _⟩ := block_inj mh (i / c) (k / c) y y' hy hy' hrow
  obtain ⟨hmod2, _⟩ := block_inj mw (i % c) (k % c) x x' hx hx' hcol
  have hi := Nat.div_add_mod i c
  have hk := Nat.div_add_mod k c
  have hce : c * (i / c) = c * (k / c) := by rw [hdiv]
  omega

/-- C5 amended: for two distinct indexed glyphs whose declared width and
height do not exceed `max_width` and `max_height`, every atlas position
changed while decoding one glyph lies inside that glyph's own cell, and is
left untouched by the decode of the other glyph (cells are disjoint since
the texture width is `col_count * max_width`).  The restriction to
non-oversized glyphs is forced: a glyph whose declared width exceeds
`max_width` writes beyond its cell into its neighbour's cell
(`glyph_overlap_cex`). -/
theorem glyph_writes_disjoint (c mw mh texW : Nat) (hc : 0 < c)
    (htw : texW = c * mw) (i k : Nat) (hik : i ≠ k)
    (di dk : PF2CharDef)
    (hwi : di.width ≤ mw) (hhi : di.height ≤ mh)
    (hwk : dk.width ≤ mw) (hhk : dk.height ≤ mh)
    (datai datak : List Nat) (basei basek : Nat) (t ti tk : List RGBA8)
    (hi : drawGlyph datai basei di.width texW (cell_origin i c mw mh).1
      (cell_origin i c mw mh).2 di.height t = .ok ti)
    (hk : drawGlyph datak basek dk.width texW (cell_origin k c mw mh).1
      (cell_origin k c mw mh).2 dk.height t = .ok tk) :
    ∀ p, ti.get? p ≠ t.get? p →
      inCellB c mw mh texW i p = true ∧ tk.get? p = t.get? p := by
  intro p hchange
  have hform : ¬ (∀ x y, x < di.width → y < di.height →
      p ≠ ((cell_origin i c mw mh).2 + y) * texW + ((cell_origin i c mw mh).1 + x)) :=
    fun hall => hchange (drawGlyph_frame datai basei di.width texW
      (cell_origin i c mw mh).1 (cell_origin i c mw mh).2 di.height t ti hi p hall)
  push_neg at hform
  obtain ⟨x, y, hx, hy, hp⟩ := hform
  have hpc : p = (i / c * mh + y) * texW + (i % c * mw + x) := by
    rw [hp]
    unfold cell_origin
    dsimp only
  constructor
  · rw [inCellB_iff]
    exact ⟨x, by omega, y, by omega, hpc⟩
  · apply drawGlyph_frame datak basek dk.width texW (cell_origin k c mw mh).1
      (cell_origin k c mw mh).2 dk.height t tk hk p
    intro x' y' hx' hy' hpe
    have hpk : p = (k / c * mh + y') * texW + (k % c * mw + x') := by
      rw [hpe]
      unfold cell_origin
      dsimp only
    exact hik (cell_pos_inj c mw mh texW hc htw i k x y x' y'
      (by omega) (by omega) (by omega) (by omega) (hpc.symm.trans hpk))

set_option maxRecDepth 8000 in
/-- C5 counterexample: with 2 glyphs, `max_width = max_height = 8` (atlas
16×8, cells at origins (0,0) and (8,0)), a glyph of declared width 9 at
sequence index 0 writes the white pixel at linear position 8 — outside its
own cell and inside the cell of index 1 — while the glyph at index 1 also
writes position 8: the write sets are neither confined to their own cells
nor disjoint once a declared width exceeds `max_width`. -/
theorem glyph_overlap_cex :
    texAt (drawGlyph [255,255] 0 9 16 0 0 1 (List.replicate 128 defaultRGBA)) 8 =
      some whiteRGBA ∧
    texAt (drawGlyph [128] 0 1 16 8 0 1 (List.replicate 128 defaultRGBA)) 8 =
      some whiteRGBA ∧
    (List.replicate 128 defaultRGBA).get? 8 = some defaultRGBA ∧
    inCellB 2 8 8 16 0 8 = false ∧
    inCellB 2 8 8 16 1 8 = true ∧
    cell_origin 0 2 8 8 = (0, 0) ∧ cell_origin 1 2 8 8 = (8, 0) ∧
    texture_size 2 8 8 = (16, 8) ∧ (9 : Nat) > 8 := by decide

/-- C5 witness: the amended disjointness statement instantiated on two 1×1
glyphs in a 2×1 atlas, at the position written by the first glyph. -/
theorem glyph_writes_disjoint_witness :
    inCellB 2 1 1 2 0 0 = true ∧
    List.get? [defaultRGBA, whiteRGBA] 0 = List.get? (List.replicate 2 defaultRGBA) 0 :=
  glyph_writes_disjoint 2 1 1 2 (by decide) rfl 0 1
    (by decide) ⟨1, 1, 0, 0, 0⟩ ⟨1, 1, 0, 0, 0⟩ (by decide) (by decide)
    (by decide) (by decide) [128] [128] 0 0 (List.replicate 2 defaultRGBA)
    [whiteRGBA, defaultRGBA] [defaultRGBA, whiteRGBA]
    (by decide) (by decide) 0 (by decide)

end PF2
